/-
  Verification of the MEMORY_P batch engine (parallel_engine.rs, analyzer.rs,
  workspace.rs) against its natural-language specification.

  File contents are modeled as `List Char` (the engine only ever operates on
  decoded UTF-8 text); the filesystem is a partial map from paths to contents;
  byte counters are explicit `Nat` state threaded through the functions that
  the Rust code updates through shared atomics.  The data-parallel fan-out is
  modeled sequentially: every per-file task reads and writes only its own
  file, so the sequential fold computes the same per-file results.
-/
import Mathlib

set_option synthInstance.maxSize 1024

namespace MemoryP

/-! ## Rust string primitives

Character-level models of the `str` operations the engine uses.
`wsChar` covers the ASCII part of `char::is_whitespace` (the only
whitespace characters the engine's inputs can contain that matter for the
statements below). -/

def wsChar (c : Char) : Bool :=
  c = ' ' || c = '\t' || c = '\n' || c = '\r' || c = '\x0b' || c = '\x0c'

/-- ASCII fragment of the regex class `\w` used by the analyzer's patterns. -/
def wordChar (c : Char) : Bool :=
  c.isAlphanum || c = '_'

/-- `str::trim_end`: drop trailing whitespace. -/
def trimEnd (l : List Char) : List Char :=
  (l.reverse.dropWhile wsChar).reverse

/-- `str::trim_start`: drop leading whitespace. -/
def trimStart (l : List Char) : List Char :=
  l.dropWhile wsChar

/-- `str::trim`: drop whitespace at both ends. -/
def trim (l : List Char) : List Char :=
  trimStart (trimEnd l)

/-- `str::contains` for a literal pattern (substring test). -/
def containsSub (hay needle : List Char) : Bool :=
  needle.isPrefixOf hay ||
    match hay with
    | [] => false
    | _ :: t => containsSub t needle

/-- Split at every occurrence of a separator, keeping all segments
(`"a\n"` gives `["a", ""]`, `""` gives `[""]`). -/
def splitOnChar (sep : Char) : List Char → List (List Char)
  | [] => [[]]
  | c :: rest =>
    if c = sep then [] :: splitOnChar sep rest
    else
      match splitOnChar sep rest with
      | [] => [[c]]
      | s :: ss => (c :: s) :: ss

/-- Split at every newline character, keeping all segments. -/
def splitNl : List Char → List (List Char) :=
  splitOnChar '\n'

/-- Remove one trailing carriage return (the `\r` of a `\r\n` terminator). -/
def stripTrailCr (l : List Char) : List Char :=
  if l.getLast? = some '\r' then l.dropLast else l

/-- `str::lines`: split at `\n`, strip the `\r` of `\r\n` terminators, and do
not yield a final empty segment produced by a trailing newline.  A final
segment not terminated by a newline keeps any trailing `\r`. -/
def rustLines (cs : List Char) : List (List Char) :=
  let segs := splitNl cs
  segs.dropLast.map stripTrailCr ++
    (match segs.getLast? with
     | some [] => []
     | some l => [l]
     | none => [])

/-- Re-join lines, terminating every line with a newline — the shape in which
`smart_repair` and `edit_file` rebuild file contents. -/
def joinNl (ls : List (List Char)) : List Char :=
  ls.flatMap (fun l => l ++ ['\n'])

/-- Fuel-driven worker for `replaceSub` (the fuel is an upper bound on the
haystack length, so it never runs out on the wrapper's call). -/
def replaceSubAux (t r : List Char) : Nat → List Char → List Char
  | 0, s => s
  | fuel + 1, s =>
    if t ≠ [] ∧ t.isPrefixOf s then r ++ replaceSubAux t r fuel (s.drop t.length)
    else
      match s with
      | [] => []
      | c :: rest => c :: replaceSubAux t r fuel rest

/-- `str::replace`: replace all non-overlapping occurrences of `t` by `r`,
left to right.  An empty pattern matches at every character boundary,
as it does for Rust's `str::replace`. -/
def replaceSub (s t r : List Char) : List Char :=
  if t = [] then r ++ s.flatMap (fun c => c :: r)
  else replaceSubAux t r (s.length + 1) s

/-- `Vec::join("|")` on message fragments (`findings.join("|")`). -/
def joinPipe (parts : List (List Char)) : List Char :=
  (parts.intersperse ['|']).flatten

/-! ## The analyzer's regular expressions

The `lazy_static` regexes of `analyzer.rs` all have one of a handful of
simple shapes (a literal, a literal followed by `\s+\w+`, `\s+`, or `\s*`,
a fixed-width character class, …).  Each is modeled as a matcher returning
the length of the (greedy, leftmost) match at the current position, and
`countMatches` reproduces `Regex::find_iter().count()`: scan left to right,
and resume after the end of each match. -/

/-- A matcher returns the length of the match starting at this position. -/
abbrev Matcher := List Char → Option Nat

def takeWhileCount (p : Char → Bool) (cs : List Char) : Nat :=
  (cs.takeWhile p).length

/-- A literal pattern (also the shape of `RE_COMMENT = "//"` and `else`). -/
def litM (lit : List Char) : Matcher := fun cs =>
  if lit.isPrefixOf cs then some lit.length else none

/-- `lit\s+` (the shape of `use\s+`, `for\s+`, `while\s+`). -/
def litWsPlusM (lit : List Char) : Matcher := fun cs =>
  if lit.isPrefixOf cs then
    let r := cs.drop lit.length
    let w := takeWhileCount wsChar r
    if w = 0 then none else some (lit.length + w)
  else none

/-- `lit\s*` (the shape of `match\s*`). -/
def litWsStarM (lit : List Char) : Matcher := fun cs =>
  if lit.isPrefixOf cs then
    some (lit.length + takeWhileCount wsChar (cs.drop lit.length))
  else none

/-- `lit\s+\w+` (the shape of `fn\s+\w+`, `struct\s+\w+`, `def\s+\w+`, …). -/
def litWsPlusWordPlusM (lit : List Char) : Matcher := fun cs =>
  if lit.isPrefixOf cs then
    let r := cs.drop lit.length
    let w := takeWhileCount wsChar r
    if w = 0 then none
    else
      let d := takeWhileCount wordChar (r.drop w)
      if d = 0 then none else some (lit.length + w + d)
  else none

/-- `if\s*[({]` (the shape of `RE_COMPLEX_IF`). -/
def ifHeadM : Matcher := fun cs =>
  if ('i' :: 'f' :: []).isPrefixOf cs then
    let r := cs.drop 2
    let w := takeWhileCount wsChar r
    match (r.drop w).head? with
    | some c => if c = '(' || c = '{' then some (2 + w + 1) else none
    | none => none
  else none

/-- `lit` followed by exactly `k` characters of a class (the shape of the
API-key regexes `AIza[0-9A-Za-z-_]{35}` and `sk-[a-zA-Z0-9]{48}`). -/
def litClassNM (lit : List Char) (p : Char → Bool) (k : Nat) : Matcher := fun cs =>
  if lit.isPrefixOf cs then
    let r := cs.drop lit.length
    if (r.take k).length = k && (r.take k).all p then some (lit.length + k) else none
  else none

/-- `(?i)password\s*[:=]` (`RE_SEC_PASSWORD`). -/
def passwordAssignM : Matcher := fun cs =>
  let lit := "password".toList
  if lit.isPrefixOf (cs.take lit.length |>.map Char.toLower) &&
      cs.length ≥ lit.length then
    let r := cs.drop lit.length
    let w := takeWhileCount wsChar r
    match (r.drop w).head? with
    | some c => if c = ':' || c = '=' then some (lit.length + w + 1) else none
    | none => none
  else none

/-- Fuel-driven scan: at each position try the matcher; on a match of length
`n` skip the whole match, otherwise advance one character. -/
def countMatchesAux (m : Matcher) : Nat → List Char → Nat
  | 0, _ => 0
  | _, [] => 0
  | fuel + 1, c :: rest =>
    match m (c :: rest) with
    | some n => 1 + countMatchesAux m fuel (rest.drop (n - 1))
    | none => countMatchesAux m fuel rest

/-- `Regex::find_iter(content).count()` (also `str::matches(..).count()`
when the matcher is a literal). -/
def countMatches (m : Matcher) (cs : List Char) : Nat :=
  countMatchesAux m cs.length cs

/-- `Regex::is_match`. -/
def hasMatch (m : Matcher) (cs : List Char) : Bool :=
  countMatches m cs ≠ 0

/-! ## analyzer.rs — `CodeAnalyzer`, `FileAnalysis`, and the analysis cache -/

/-- `Path::extension`: the part of the last path component after its final
dot; `None` when the component has no dot or only a leading dot. -/
def rustExtension (path : List Char) : Option (List Char) :=
  let fileName := (splitOnChar '/' path).getLastD []
  let parts := splitOnChar '.' fileName
  match parts with
  | [] => none
  | [_] => none
  | [[], _] => none
  | _ => some (parts.getLastD [])

/-- `file_path.extension().and_then(|s| s.to_str()).unwrap_or("")`. -/
def extOf (path : List Char) : List Char :=
  (rustExtension path).getD []

/-- `FileAnalysis` (analyzer.rs).  `complexity_estimate` is an `f32` in the
source; all its weights are multiples of 0.5 and every value reachable here
is an exact half-integer well below the `f32` precision limit, so it is
modeled exactly in half-units as `complexity_halves`
(`complexity_estimate = complexity_halves / 2`). -/
structure FileAnalysis where
  file_path : List Char
  lines_of_code : Nat
  lines_with_code : Nat
  blank_lines : Nat
  comment_lines : Nat
  complexity_halves : Nat
  functions : Nat
  structs : Nat
  imports : Nat
  warnings : List (List Char)
  security_score : Nat
  deriving DecidableEq

/-- Warning strings produced by `detect_warnings` (analyzer.rs). -/
def wMojoPyInterop : List Char := "📦 MOJO: Interoperabilidad con Python detectada".toList
def wMojoStructHint : List Char :=
  "⚠️ MOJO: Considera usar 'struct' para performance en lugar de solo funciones".toList
def wPyEval : List Char := "🛡️ SEGURIDAD (Python): Uso de eval() detectado".toList
def wPyPickle : List Char := "🛡️ SEGURIDAD (Python): Deserialización insegura con pickle".toList
def wPyNoMain : List Char := "⚠️ Python: Script sin entry point claro (main)".toList
def wRsUnsafeBlock : List Char := "☢️ RUST: Bloque unsafe detectado".toList
def wRsUnwrapUse : List Char := "⚠️ RUST: Uso de unwrap() en producción".toList
def wRsHeavyClone : List Char := "🧬 RUST: Heavy cloning detectado en archivo grande".toList
def wRsMutexLock : List Char := "🔒 RUST: Mutex lock (contención potencial)".toList
def wRsStaticMut : List Char := "🦠 RUST: static mut (estado global inseguro)".toList
def wRsManyToString : List Char := "📦 RUST: Múltiples to_string() - considerar Cow<str>".toList
def wRsVecNoCapacity : List Char := "📐 RUST: Vec sin with_capacity - optimización posible".toList
def wGoEmptyAny : List Char := "⚠️ GO: Uso de interface\x7b\x7d vacía (Any). Tipado débil.".toList
def wBendFoldNoCase : List Char := "⚠️ BEND: 'fold' recursivo sin pattern matching 'case'".toList
def wBendNoMain : List Char := "⚠️ BEND: Falta 'def main:'".toList
def wBendGpuHint : List Char := "🚀 BEND: Código paralelizable - considerar run-cu para GPU".toList
def wChplForall : List Char := "⚠️ CHAPEL: 'forall' paralelo. Verificar data race o usar 'with'".toList
def wJlThreadCheck : List Char := "⚠️ JULIA: @threads sin verificar nthreads()".toList
def wJlGlobal : List Char := "🦠 JULIA: Variable global detectada".toList
def wTsAnyType : List Char := "⚠️ TS: Tipo 'any' detectado - tipado débil".toList
def wTsIgnoreHint : List Char := "⚠️ TS: @ts-ignore encontrado".toList
def wSecGoogleKey : List Char := "🛡️ SEGURIDAD: Google API Key detectada".toList
def wSecOpenaiKey : List Char := "🛡️ SEGURIDAD: OpenAI API Key detectada".toList
def wSecPassword : List Char := "🛡️ SEGURIDAD: Password Hardcoded detectado".toList

/-- `RE_SEC_API_KEY_GOOGLE = AIza[0-9A-Za-z-_]{35}`. -/
def googleKeyM : Matcher :=
  litClassNM "AIza".toList (fun c => c.isAlphanum || c = '-' || c = '_') 35

/-- `RE_SEC_API_KEY_OPENAI = sk-[a-zA-Z0-9]{48}`. -/
def openaiKeyM : Matcher :=
  litClassNM "sk-".toList (fun c => c.isAlphanum) 48

/-- `detect_warnings(content, file_path)` (analyzer.rs): extension-specific
heuristics followed by the cross-language secret checks. -/
def detect_warnings (content path : List Char) : List (List Char) :=
  let ext := extOf path
  let extWarnings : List (List Char) :=
    if ext = "mojo".toList || ext = "🔥".toList then
      (if containsSub content "Python.import".toList then [wMojoPyInterop] else []) ++
      (if !containsSub content "struct".toList && containsSub content "fn ".toList then
        [wMojoStructHint] else [])
    else if ext = "py".toList then
      (if containsSub content "eval(".toList then [wPyEval] else []) ++
      (if containsSub content "pickle.load".toList then [wPyPickle] else []) ++
      (if !containsSub content "def main():".toList &&
          !containsSub content "if __name__".toList then [wPyNoMain] else [])
    else if ext = "rs".toList then
      (if containsSub content "unsafe \x7b".toList then [wRsUnsafeBlock] else []) ++
      (if containsSub content "unwrap()".toList then [wRsUnwrapUse] else []) ++
      (if containsSub content ".clone()".toList && content.length > 5000 then
        [wRsHeavyClone] else []) ++
      (if containsSub content "Mutex<".toList then [wRsMutexLock] else []) ++
      (if containsSub content "static mut".toList then [wRsStaticMut] else []) ++
      (if containsSub content "to_string()".toList &&
          countMatches (litM "to_string()".toList) content > 10 then
        [wRsManyToString] else []) ++
      (if containsSub content "Vec::new()".toList &&
          !containsSub content "with_capacity".toList then [wRsVecNoCapacity] else [])
    else if ext = "go".toList then
      (if containsSub content "interface\x7b\x7d".toList then [wGoEmptyAny] else [])
    else if ext = "bend".toList || ext = "hvm".toList then
      (if containsSub content "fold".toList && !containsSub content "case".toList then
        [wBendFoldNoCase] else []) ++
      (if !containsSub content "def main:".toList then [wBendNoMain] else []) ++
      (if containsSub content "return".toList &&
          !containsSub content "bend run-cu".toList then [wBendGpuHint] else [])
    else if ext = "chpl".toList then
      (if containsSub content "forall".toList && !containsSub content "with".toList then
        [wChplForall] else [])
    else if ext = "jl".toList then
      (if containsSub content "@threads".toList &&
          !containsSub content "Threads.nthreads()".toList then [wJlThreadCheck] else []) ++
      (if containsSub content "global ".toList then [wJlGlobal] else [])
    else if ext = "ts".toList || ext = "tsx".toList then
      (if containsSub content "any".toList then [wTsAnyType] else []) ++
      (if containsSub content "// @ts-ignore".toList then [wTsIgnoreHint] else [])
    else []
  extWarnings ++
    (if hasMatch googleKeyM content then [wSecGoogleKey] else []) ++
    (if hasMatch openaiKeyM content then [wSecOpenaiKey] else []) ++
    (if hasMatch passwordAssignM content then [wSecPassword] else [])

/-- `calculate_security_score(warnings)` (analyzer.rs): fold an `i32` score
starting at 100, then clamp to `[0, 100]` and cast to `u8`.  The score is
an `Int` here; `i32` cannot overflow for any warning list the analyzer can
produce (at most a handful of warnings per file). -/
def calculate_security_score (warnings : List (List Char)) : Nat :=
  let score : Int := warnings.foldl
    (fun s w =>
      if containsSub w "SEGURIDAD".toList || containsSub w "API Key".toList ||
          containsSub w "Password".toList then s - 25
      else if containsSub w "unsafe".toList then s - 15
      else s - 5)
    100
  (min 100 (max 0 score)).toNat

/-- `estimate_complexity(content, 1.0)` in half-units: base 1.0 plus
1.5 per `if\s*[({]`, 0.5 per `else`, 2.0 per `match\s*`, 1.5 per `for\s+`,
1.5 per `while\s+`, 0.5 per `fn\s+\w+`. -/
def estimate_complexity_halves (content : List Char) : Nat :=
  2 + 3 * countMatches ifHeadM content
    + 1 * countMatches (litM "else".toList) content
    + 4 * countMatches (litWsStarM "match".toList) content
    + 3 * countMatches (litWsPlusM "for".toList) content
    + 3 * countMatches (litWsPlusM "while".toList) content
    + 1 * countMatches (litWsPlusWordPlusM "fn".toList) content

/-- The cache-miss computation of `CodeAnalyzer::analyze_file`: line counts,
syntax counts driven by the file extension, complexity, warnings, score.
`lines_with_code` is a `usize` subtraction in the source; modeled with
truncated `Nat` subtraction. -/
def computeAnalysis (path content : List Char) : FileAnalysis :=
  let lines := rustLines content
  let blank_lines := lines.countP (fun l => (trim l).isEmpty)
  let comment_lines := countMatches (litM "//".toList) content
  let ext := extOf path
  let fnStructM :=
    if ext = "py".toList then
      (litWsPlusWordPlusM "def".toList, litWsPlusWordPlusM "class".toList)
    else if ext = "go".toList then
      (litWsPlusWordPlusM "func".toList, litWsPlusWordPlusM "type".toList)
    else if ext = "bend".toList || ext = "hvm".toList then
      (litWsPlusWordPlusM "def".toList, litWsPlusWordPlusM "type".toList)
    else
      (litWsPlusWordPlusM "fn".toList, litWsPlusWordPlusM "struct".toList)
  let warnings := detect_warnings content path
  { file_path := path
    lines_of_code := lines.length
    lines_with_code := lines.length - blank_lines - comment_lines
    blank_lines := blank_lines
    comment_lines := comment_lines
    complexity_halves := estimate_complexity_halves content
    functions := countMatches fnStructM.1 content
    structs := countMatches fnStructM.2 content
    imports := countMatches (litWsPlusM "use".toList) content
    warnings := warnings
    security_score := calculate_security_score warnings }

/-- The `ANALYSIS_CACHE`: path ↦ (modification time, analysis).  File
modification times are abstracted as `Nat`. -/
abbrev AnalysisCache := List (List Char × Nat × FileAnalysis)

def cacheGet (cache : AnalysisCache) (key : List Char) : Option (Nat × FileAnalysis) :=
  (cache.find? (fun e => decide (e.1 = key))).map (·.2)

/-- `scc::HashMap::insert`: inserts only when the key is absent; an existing
entry is left untouched and the error result is discarded by the caller
(`let _ = ANALYSIS_CACHE.insert(..)`). -/
def sccInsert (cache : AnalysisCache) (key : List Char) (v : Nat × FileAnalysis) :
    AnalysisCache :=
  if (cacheGet cache key).isSome then cache else (key, v) :: cache

/-- The analyzer's filesystem view: path ↦ (modification time, content). -/
abbrev FsA := List Char → Option (Nat × List Char)

instance instDecEqExcept {ε α : Type _} [DecidableEq ε] [DecidableEq α] :
    DecidableEq (Except ε α)
  | .error e, .error f =>
    match decEq e f with
    | isTrue h => isTrue (by rw [h])
    | isFalse h => isFalse (fun hh => h (by injection hh))
  | .error _, .ok _ => isFalse (fun hh => Except.noConfusion hh)
  | .ok _, .error _ => isFalse (fun hh => Except.noConfusion hh)
  | .ok a, .ok b =>
    match decEq a b with
    | isTrue h => isTrue (by rw [h])
    | isFalse h => isFalse (fun hh => h (by injection hh))

/-- `CodeAnalyzer::analyze_file` (analyzer.rs): `FileNotFound` on a missing
path; a cache hit requires the stored timestamp to equal the current one;
otherwise the analysis is recomputed and offered to the cache.  The `Bool`
of the result records whether a recomputation happened (false = wait-free
cache hit). -/
def analyze_file (fs : FsA) (cache : AnalysisCache) (path : List Char) :
    Except Unit (FileAnalysis × AnalysisCache × Bool) :=
  match fs path with
  | none => .error ()
  | some (modified, content) =>
    let hit :=
      match cacheGet cache path with
      | some (ts, a) => if ts = modified then some a else none
      | none => none
    match hit with
    | some a => .ok (a, cache, false)
    | none =>
      let result := computeAnalysis path content
      .ok (result, sccInsert cache path (modified, result), true)

/-! ## parallel_engine.rs — `UltraParallelEngine` -/

/-- `ProcessingStatus` (parallel_engine.rs). -/
inductive ProcessingStatus where
  | success
  | warning
  | error
  | skipped
  deriving DecidableEq

/-- `ProcessingResult` (parallel_engine.rs). -/
structure ProcessingResult where
  path : List Char
  status : ProcessingStatus
  findings : List (List Char)
  deriving DecidableEq

/-- `ProcessingStats` (parallel_engine.rs).  Wall-clock duration is real
time and is not modeled; every statement below is about the other fields. -/
structure ProcessingStats where
  total_files : Nat
  successful : Nat
  errors : Nat
  warnings : Nat
  skipped : Nat
  total_bytes : Nat
  deriving DecidableEq

/-- `ParallelConfig` (parallel_engine.rs); only the fields the modeled code
paths read.  `max_threads` sizes the worker pool and cannot influence the
per-file results, which depend only on each file's own content. -/
structure ParallelConfig where
  max_threads : Nat
  chunk_size : Nat
  large_file_threshold : Nat

/-- The engine's filesystem view: path ↦ content.  All files are decoded
text (the `Mmap`/UTF-8 error paths of the source concern binary files,
which this text-level model does not represent). -/
abbrev Fs := List Char → Option (List Char)

def fsWrite (fs : Fs) (p c : List Char) : Fs :=
  fun q => if q = p then some c else fs q

def fsRemove (fs : Fs) (p : List Char) : Fs :=
  fun q => if q = p then none else fs q

/-- A per-file operation `Fn(&Path, &str) -> Result<(String, ProcessingStatus)>`;
the modeled operations are pure functions of the path and content. -/
abbrev OpFn := List Char → List Char → Except (List Char) (List Char × ProcessingStatus)

def msgStatError : List Char := "Stat Error".toList
def msgOpError (e : List Char) : List Char := "Error: ".toList ++ e

/-- The `process_one` closure of `process_files`: stat the file (missing
file → `Error` result), read it, add the file's size to the shared byte
counter — in both the mmap branch (size above the large-file threshold)
and the buffered branch this happens *before* the operation is invoked —
then run the operation; an operation failure becomes an `Error` result.
Returns the result together with the bytes added to the counter. -/
def process_one (fs : Fs) (op : OpFn) (p : List Char) : ProcessingResult × Nat :=
  match fs p with
  | none => ({ path := p, status := .error, findings := [msgStatError] }, 0)
  | some content =>
    let bytes := content.length
    match op p content with
    | .ok (msg, status) => ({ path := p, status := status, findings := [msg] }, bytes)
    | .error e =>
      ({ path := p, status := .error, findings := [msgOpError e] }, bytes)

/-- Fuel-driven worker for `parChunks`; each step peels `max 1 n` elements,
so fuel `l.length` always suffices. -/
def parChunksAux (n : Nat) : Nat → List α → List (List α)
  | 0, _ => []
  | _, [] => []
  | fuel + 1, l@(_ :: _) =>
    l.take (max 1 n) :: parChunksAux n fuel (l.drop (max 1 n))

/-- `slice::par_chunks(chunk_size.max(1))`: fixed-size chunks, in order, the
last chunk possibly shorter. -/
def parChunks (n : Nat) (l : List α) : List (List α) :=
  parChunksAux n l.length l

/-- The direct fan-out branch of `process_files` (`par_iter`). -/
def processResultsDirect (fs : Fs) (op : OpFn) (paths : List (List Char)) :
    List (ProcessingResult × Nat) :=
  paths.map (process_one fs op)

/-- The chunked fan-out branch of `process_files`
(`par_chunks(chunk_size.max(1)).flat_map(..)`). -/
def processResultsChunked (fs : Fs) (cfg : ParallelConfig) (op : OpFn)
    (paths : List (List Char)) : List (ProcessingResult × Nat) :=
  (parChunks cfg.chunk_size paths).flatMap (fun chunk => chunk.map (process_one fs op))

/-- Derive `ProcessingStats` from a completed result set the way
`process_files` does: scan for each status, and read the byte counter. -/
def statsFromResults (results : List ProcessingResult) (totalBytes : Nat) :
    ProcessingStats :=
  { total_files := results.length
    successful := results.countP (fun r => decide (r.status = .success))
    warnings := results.countP (fun r => decide (r.status = .warning))
    errors := results.countP (fun r => decide (r.status = .error))
    skipped := results.countP (fun r => decide (r.status = .skipped))
    total_bytes := totalBytes }

/-- `UltraParallelEngine::process_files`.  `bytes0` is the value of the
engine's `total_bytes` atomic when the call starts (0 for a fresh engine;
the counter is never reset between calls on the same engine).  Returns the
results, the derived stats, and the counter's final value. -/
def process_files (fs : Fs) (cfg : ParallelConfig) (op : OpFn)
    (paths : List (List Char)) (bytes0 : Nat) :
    List ProcessingResult × ProcessingStats × Nat :=
  let pairs :=
    if paths.length < 256 then processResultsDirect fs op paths
    else processResultsChunked fs cfg op paths
  let results := pairs.map Prod.fst
  let bytesOut := bytes0 + (pairs.map Prod.snd).sum
  (results, statsFromResults results bytesOut, bytesOut)

/-! ## workspace.rs — `smart_repair` -/

/-- Is this line's trimmed form an import line (`trimmed.starts_with("use ")`)? -/
def isUseLine (l : List Char) : Bool :=
  "use ".toList.isPrefixOf (trim l)

/-- The line loop of `smart_repair`: each kept line is pushed as
`line.trim_end()` plus a newline; a `use` line whose trimmed form was
already seen is dropped, and dropping one records the duplicate-removed
change.  `seen` models the `HashSet` of trimmed
imported lines.  Returns the output lines and whether a duplicate was dropped. -/
def smartRepairGo (seen : List (List Char)) :
    List (List Char) → List (List Char) × Bool
  | [] => ([], false)
  | line :: rest =>
    let trimmed := trim line
    if "use ".toList.isPrefixOf trimmed then
      if trimmed ∈ seen then
        ((smartRepairGo seen rest).1, true)
      else
        let res := smartRepairGo (trimmed :: seen) rest
        (trimEnd line :: res.1, res.2)
    else
      let res := smartRepairGo seen rest
      (trimEnd line :: res.1, res.2)

/-- The content `smart_repair` builds in memory for a file. -/
def smartRepairContent (content : List Char) : List Char :=
  joinNl (smartRepairGo [] (rustLines content)).1

def msgRepairDup : List Char := "🛠️ SMART REPAIR [ Duplicate import removed ]".toList
def msgRepairFormatting : List Char := "🛠️ SMART REPAIR [ Formatting ]".toList
def msgRepairNoop : List Char := "✨ CÓDIGO YA ÓPTIMO".toList

/-- `workspace::smart_repair` on one file's content: rebuild the content,
write it back only when it differs, and report a change summary or the
no-op message (the source prefixes the path display; the path is carried
separately here).  Returns `(content on disk after the call, wrote?, message)`. -/
def smart_repair (content : List Char) : List Char × Bool × List Char :=
  let res := smartRepairGo [] (rustLines content)
  let modified := joinNl res.1
  if modified ≠ content then
    (modified, true, if res.2 then msgRepairDup else msgRepairFormatting)
  else (content, false, msgRepairNoop)

/-! ## ultra_repair: `process_files` with `workspace::smart_repair` as the
operation.  The operation writes the file it was handed, so the filesystem
is threaded through the batch; every task touches only its own path, so
the sequential fold produces each file's result exactly as the
data-parallel run does. -/

def ultraRepairStep (fs : Fs) (p : List Char) : ProcessingResult × Nat × Fs :=
  match fs p with
  | none => ({ path := p, status := .error, findings := [msgStatError] }, 0, fs)
  | some content =>
    let bytes := content.length
    let res := smart_repair content
    let fs' := if res.2.1 then fsWrite fs p res.1 else fs
    ({ path := p, status := .success, findings := [res.2.2] }, bytes, fs')

def ultraRepairGo (fs : Fs) : List (List Char) → List ProcessingResult × Nat × Fs
  | [] => ([], 0, fs)
  | p :: rest =>
    let (r, b, fs') := ultraRepairStep fs p
    let (rs, bs, fs'') := ultraRepairGo fs' rest
    (r :: rs, b + bs, fs'')

/-- `ultra_repair(paths, config)`: a fresh engine (byte counter 0) running
`smart_repair` over the batch; `Ok` messages become `Success` results. -/
def ultra_repair (fs : Fs) (paths : List (List Char)) :
    List ProcessingResult × ProcessingStats × Fs :=
  let out := ultraRepairGo fs paths
  (out.1, statsFromResults out.1 out.2.1, out.2.2)

/-! ## mcp/models.rs + ultra_edit -/

/-- `EditOp` (mcp/models.rs).  `RegexReplace{pattern, replacement}` carries
the *denotation* of `Regex::new(pattern)`: `none` models a malformed
pattern (the operation is skipped for that file, not fatal), and
`some f` models a compiled regex together with its replacement, where
`f content = re.replace_all(content, replacement)`. -/
inductive EditOp where
  | replace (target replacement : List Char)
  | regexReplace (re : Option (List Char → List Char))
  | append (content : List Char)

/-- `FileChange` (mcp/models.rs). -/
structure FileChange where
  path : List Char
  operations : List EditOp

/-- One step of the edit loop of `ultra_edit`: `Replace` substitutes and
counts as applied whenever the target occurs; `Append` always appends and
counts; `RegexReplace` counts only when the replacement changed the
content. -/
def applyEditOp : List Char × Nat → EditOp → List Char × Nat
  | (content, applied), .replace target replacement =>
    if containsSub content target then (replaceSub content target replacement, applied + 1)
    else (content, applied)
  | (content, applied), .append suffix => (content ++ suffix, applied + 1)
  | (content, applied), .regexReplace re =>
    match re with
    | some f =>
      let newContent := f content
      if newContent ≠ content then (newContent, applied + 1) else (content, applied)
    | none => (content, applied)

def msgNoMatch : List Char := "No match found for edits".toList
def msgApplied (n : Nat) : List Char := ("Applied " ++ toString n ++ " edits").toList

/-- The per-change closure of `ultra_edit`: auto-create a missing target
(parent directories plus an empty file — this runs regardless of
`dry_run`), read the content, fold the operations over an in-memory copy,
then either report `Skipped` (nothing applied) or `Success` with the
applied count, writing back only when `dry_run` is false.  Creation and
write failures are I/O errors a total filesystem map cannot produce. -/
def ultraEditFile (dry : Bool) (fs : Fs) (ch : FileChange) : ProcessingResult × Fs :=
  let fs0 := if fs ch.path = none then fsWrite fs ch.path [] else fs
  let content0 := (fs0 ch.path).getD []
  let edited := ch.operations.foldl applyEditOp (content0, 0)
  if edited.2 > 0 then
    let fs' := if !dry then fsWrite fs0 ch.path edited.1 else fs0
    ({ path := ch.path, status := .success, findings := [msgApplied edited.2] }, fs')
  else
    ({ path := ch.path, status := .skipped, findings := [msgNoMatch] }, fs0)

def ultraEditGo (dry : Bool) (fs : Fs) : List FileChange → List ProcessingResult × Fs
  | [] => ([], fs)
  | ch :: rest =>
    let (r, fs') := ultraEditFile dry fs ch
    let (rs, fs'') := ultraEditGo dry fs' rest
    (r :: rs, fs'')

/-- The stats constructions of `ultra_edit` and `ultra_delete` count
`Success`, `Error` and `Skipped` results and take the remaining fields
from `Default::default()` — in particular `warnings` stays 0 whether or
not `Warning` results exist. -/
def statsNoWarnings (results : List ProcessingResult) : ProcessingStats :=
  { total_files := results.length
    successful := results.countP (fun r => decide (r.status = .success))
    errors := results.countP (fun r => decide (r.status = .error))
    skipped := results.countP (fun r => decide (r.status = .skipped))
    warnings := 0
    total_bytes := 0 }

/-- `ultra_edit(changes, config, dry_run)`. -/
def ultra_edit (fs : Fs) (changes : List FileChange) (dry : Bool) :
    List ProcessingResult × ProcessingStats × Fs :=
  let out := ultraEditGo dry fs changes
  (out.1, statsNoWarnings out.1, out.2)

/-! ## ultra_delete -/

def msgNoExist : List Char := "File does not exist".toList
def msgDryDelete : List Char := "[DRY_RUN] Would delete this file".toList
def msgDeleted : List Char := "Deleted successfully".toList

/-- The per-path closure of `ultra_delete`: missing path → `Skipped`;
`dry_run` → `Warning` without touching the filesystem; otherwise remove
the file (or directory tree) and report `Success` (the `Error` branch is
an I/O failure a total filesystem map cannot produce). -/
def ultraDeleteOne (dry : Bool) (fs : Fs) (p : List Char) : ProcessingResult × Fs :=
  if fs p = none then ({ path := p, status := .skipped, findings := [msgNoExist] }, fs)
  else if dry then ({ path := p, status := .warning, findings := [msgDryDelete] }, fs)
  else ({ path := p, status := .success, findings := [msgDeleted] }, fsRemove fs p)

def ultraDeleteGo (dry : Bool) (fs : Fs) : List (List Char) → List ProcessingResult × Fs
  | [] => ([], fs)
  | p :: rest =>
    let (r, fs') := ultraDeleteOne dry fs p
    let (rs, fs'') := ultraDeleteGo dry fs' rest
    (r :: rs, fs'')

/-- `ultra_delete(paths, config, dry_run)`. -/
def ultra_delete (fs : Fs) (paths : List (List Char)) (dry : Bool) :
    List ProcessingResult × ProcessingStats × Fs :=
  let out := ultraDeleteGo dry fs paths
  (out.1, statsNoWarnings out.1, out.2)

/-! ## The `Evolve` step of `ultra_workflow` -/

def mFixHeavyClone : List Char := "FIXABLE:heavy_clone".toList
def mFixUnwrapUse : List Char := "FIXABLE:unwrap_usage".toList
def mFixVecNoCap : List Char := "FIXABLE:vec_no_capacity".toList
def fixableTag : List Char := "FIXABLE:".toList

/-- The fixable-pattern detector run by the `Evolve` analysis pass. -/
def evolveMarkers (content : List Char) : List (List Char) :=
  (if containsSub content ".clone()".toList && content.length > 5000 then
    [mFixHeavyClone] else []) ++
  (if containsSub content "unwrap()".toList then [mFixUnwrapUse] else []) ++
  (if containsSub content "Vec::new()".toList &&
      !containsSub content "with_capacity".toList then [mFixVecNoCap] else [])

/-- The per-file operation of the `Evolve` analysis pass: always `Success`,
message = the markers joined with `"|"`. -/
def evolveOp : OpFn := fun _ content => .ok (joinPipe (evolveMarkers content), .success)

/-- `issues_found`: over all results, count the findings containing
`"FIXABLE:"` (each result carries a single joined message string). -/
def issuesOf (results : List ProcessingResult) : Nat :=
  results.foldl (fun acc r => acc + r.findings.countP (fun f => containsSub f fixableTag)) 0

def evolveCompletePath : List Char := "EVOLVE_COMPLETE".toList
def msgEvolveComplete (i : Nat) : List Char :=
  ("✅ No more issues after " ++ toString i ++ " iterations").toList
def evolveIterPath (i : Nat) : List Char := ("EVOLVE_ITER_" ++ toString i).toList
def msgEvolveIter (issues fixes : Nat) (dry : Bool) : List Char :=
  ("Issues: " ++ toString issues ++ ", Fixes: " ++ toString fixes ++
    " (dry_run: " ++ (if dry then "true" else "false") ++ ")").toList

/-- Result of running the `Evolve` loop: the appended log entries, the
final filesystem, the number of fully executed iterations (ones that
logged an `EVOLVE_ITER_*` entry), and the accumulated
`stats.successful += fixes_applied` contribution. -/
structure EvolveOut where
  log : List ProcessingResult
  fs : Fs
  iters : Nat
  fixes : Nat

/-- The body of `for iteration in 0..max_iter`: analyze the active files
through the engine (whose byte counter persists across iterations); on
zero counted issues log `EVOLVE_COMPLETE` and stop; otherwise repair
(unless dry-run), log the iteration summary, and continue. -/
def evolveGo (cfg : ParallelConfig) (files : List (List Char)) (isDry : Bool) :
    Nat → Nat → Fs → Nat → EvolveOut
  | 0, _, fs, _ => { log := [], fs := fs, iters := 0, fixes := 0 }
  | remaining + 1, iter, fs, bytes =>
    let analyzed := process_files fs cfg evolveOp files bytes
    let issuesFound := issuesOf analyzed.1
    if issuesFound = 0 then
      { log := [⟨evolveCompletePath, .success, [msgEvolveComplete iter]⟩]
        fs := fs, iters := 0, fixes := 0 }
    else
      let repaired :=
        if isDry then ([], 0, fs)
        else
          ((ultra_repair fs files).1, (ultra_repair fs files).2.1.successful,
            (ultra_repair fs files).2.2)
      let rest := evolveGo cfg files isDry remaining (iter + 1) repaired.2.2 analyzed.2.2
      { log := repaired.1 ++
          (⟨evolveIterPath (iter + 1), .success,
            [msgEvolveIter issuesFound repaired.2.1 isDry]⟩ :: rest.log)
        fs := rest.fs
        iters := rest.iters + 1
        fixes := rest.fixes + repaired.2.1 }

/-- The `WorkflowStep::Evolve{max_iterations, dry_run}` handler of
`ultra_workflow`: `max_iterations.unwrap_or(5)`, `dry_run.unwrap_or(true)`,
then the bounded loop.  `bytes` is the engine's byte counter at entry. -/
def evolve_step (cfg : ParallelConfig) (fs : Fs) (files : List (List Char))
    (maxIterations : Option Nat) (dryRun : Option Bool) (bytes : Nat) : EvolveOut :=
  evolveGo cfg files (dryRun.getD true) (maxIterations.getD 5) 0 fs bytes

/-- The filesystem after `k` non-converged iterations of the `Evolve`
loop: a dry-run iteration leaves it unchanged, otherwise each iteration
runs `ultra_repair` over the active files. -/
def evolveFsIter (cfg : ParallelConfig) (files : List (List Char)) (isDry : Bool) :
    Nat → Fs → Fs
  | 0, fs => fs
  | k + 1, fs =>
    evolveFsIter cfg files isDry k (if isDry then fs else (ultra_repair fs files).2.2)

/-! ## Specification-side definitions

For the refinement-style statements below, a second definition follows the
spec's words and is proved equivalent to the one translated from the
source. -/

/-- The trimmed keys of the import lines of a line list. -/
def useKeys (ls : List (List Char)) : List (List Char) :=
  (ls.filter isUseLine).map trim

/-- Declarative repair description (spec side): walking the lines with the
list of already-walked lines at hand, drop a line exactly when it is an
imported-module line whose trimmed text equals that of an earlier such
line (first occurrence wins); emit every kept line trimmed of trailing
whitespace. -/
def specRepairGo (previous : List (List Char)) : List (List Char) → List (List Char)
  | [] => []
  | l :: rest =>
    if isUseLine l && previous.any (fun p => isUseLine p && decide (trim p = trim l)) then
      specRepairGo (previous ++ [l]) rest
    else trimEnd l :: specRepairGo (previous ++ [l]) rest

/-- Spec-side repaired content: the kept lines, newline-terminated. -/
def specSmartRepair (content : List Char) : List Char :=
  joinNl (specRepairGo [] (rustLines content))

/-- Spec side of the amended C4 claim: whether one edit operation counts as
"applied" on the given content — `Replace` whenever the target occurs
(even when the replacement text equals the target), `Append` always,
`RegexReplace` only when the replacement changes the content. -/
def opFires (content : List Char) : EditOp → Bool
  | .replace target _ => containsSub content target
  | .append _ => true
  | .regexReplace re =>
    match re with
    | some f => decide (f content ≠ content)
    | none => false

/-- Spec side: the content one edit operation produces. -/
def opTransform (content : List Char) : EditOp → List Char
  | .replace target replacement =>
    if containsSub content target then replaceSub content target replacement else content
  | .append suffix => content ++ suffix
  | .regexReplace re =>
    match re with
    | some f => f content
    | none => content

/-- Spec side: how many operations of the list fire when applied in order. -/
def specApplied (content : List Char) : List EditOp → Nat
  | [] => 0
  | op :: rest =>
    (if opFires content op then 1 else 0) + specApplied (opTransform content op) rest

/-- The bytes `process_files` reads for one path (0 when stat fails). -/
def readBytes (fs : Fs) (p : List Char) : Nat :=
  match fs p with
  | some c => c.length
  | none => 0

/-- The warning classes the code's score function actually tests: a
warning whose text mentions `SEGURIDAD`, `API Key` or `Password` loses 25
points. -/
def isSecretWarning (w : List Char) : Bool :=
  containsSub w "SEGURIDAD".toList || containsSub w "API Key".toList ||
    containsSub w "Password".toList

/-- The code's 15-point class: not in the 25-point class, mentions
`unsafe`. -/
def isUnsafeClassWarning (w : List Char) : Bool :=
  !isSecretWarning w && containsSub w "unsafe".toList

/-- Modelled from the spec: the secret/credential-class warnings are those
of the cross-language secret-pattern checks — API-key-shaped tokens and
hard-coded password assignments (the Python `eval`/`pickle` findings are
extension-specific insecure-code checks, not secret checks). -/
def isSpecSecretWarning (w : List Char) : Bool :=
  decide (w = wSecGoogleKey) || decide (w = wSecOpenaiKey) || decide (w = wSecPassword)

/-- Modelled from the spec: the unsafe-memory-class warnings are the
unsafe-memory-block usage findings. -/
def isSpecUnsafeMemWarning (w : List Char) : Bool :=
  decide (w = wRsUnsafeBlock)

/-- The score C9's formula assigns to a warning list: 100 minus 25 per
secret/credential-class warning, 15 per unsafe-memory-class warning, 5 per
other warning, clamped to `[0, 100]`. -/
def claimSecurityScore (ws : List (List Char)) : Nat :=
  (min 100 (max 0
    (100 - 25 * ws.countP isSpecSecretWarning
      - 15 * ws.countP isSpecUnsafeMemWarning
      - 5 * ws.countP (fun w => !isSpecSecretWarning w && !isSpecUnsafeMemWarning w)
      : Int))).toNat

/-! ## Concrete inputs for counterexamples and witnesses -/

/-- `ParallelConfig::default()`: all threads, chunk size 100, 10 MiB
large-file threshold. -/
def cfgDefault : ParallelConfig := ⟨0, 100, 10485760⟩

def c1fs : Fs := fun p => if p = "f.rs".toList then some "x".toList else none

def c3fs : Fs := fun p => if p = "f".toList then some "ab".toList else none
def c3opFail : OpFn := fun _ _ => .error "boom".toList

def c4fs : Fs := fun p => if p = "f".toList then some "a".toList else none
def c4change : FileChange := ⟨"f".toList, [.replace "a".toList "a".toList]⟩

def c5content : List Char := "a\n\n\n\n\nx\n".toList

def c7path : List Char := "a.rs".toList
def c7content1 : List Char := "fn a() {}\n".toList
def c7content2 : List Char := "fn a() {}\nfn b() {}\n".toList
def c7fs1 : FsA := fun p => if p = c7path then some (1, c7content1) else none
def c7fs2 : FsA := fun p => if p = c7path then some (2, c7content2) else none
def c7A1 : FileAnalysis := computeAnalysis c7path c7content1
def c7A2 : FileAnalysis := computeAnalysis c7path c7content2

def c8fs : Fs := fun p => if p = "a.rs".toList then some "x.unwrap();\n".toList else none
def c8files : List (List Char) := ["a.rs".toList]

def c9pyPath : List Char := "a.py".toList
def c9pyContent : List Char := "eval(x)\nif __name__:\n".toList

def c10fs : Fs := fun _ => none
def c10change : FileChange := ⟨"new.rs".toList, []⟩

/-! ## Supporting lemmas -/

theorem dropWhile_idem (p : α → Bool) (l : List α) :
    (l.dropWhile p).dropWhile p = l.dropWhile p := by
  induction l with
  | nil => rfl
  | cons a t ih =>
    by_cases h : p a = true
    · simpa [List.dropWhile_cons, h] using ih
    · simp [List.dropWhile_cons, h]

theorem head?_dropWhile_false (p : α → Bool) (l : List α) (a : α)
    (h : (l.dropWhile p).head? = some a) : p a = false := by
  induction l with
  | nil => simp at h
  | cons b t ih =>
    rw [List.dropWhile_cons] at h
    by_cases hb : p b = true
    · rw [if_pos hb] at h; exact ih h
    · rw [if_neg hb] at h
      have hba : b = a := by simpa using h
      subst hba
      exact Bool.eq_false_iff.mpr hb

theorem trimEnd_idem (l : List Char) : trimEnd (trimEnd l) = trimEnd l := by
  simp [trimEnd, dropWhile_idem]

theorem trim_trimEnd (l : List Char) : trim (trimEnd l) = trim l := by
  simp [trim, trimEnd_idem]

theorem getLast?_trimEnd_not_ws (l : List Char) (a : Char)
    (h : (trimEnd l).getLast? = some a) : wsChar a = false := by
  have h' : (l.reverse.dropWhile wsChar).head? = some a := by
    simpa [trimEnd] using h
  exact head?_dropWhile_false wsChar l.reverse a h'

theorem stripTrailCr_trimEnd (l : List Char) :
    stripTrailCr (trimEnd l) = trimEnd l := by
  unfold stripTrailCr
  split
  · next h =>
    have := getLast?_trimEnd_not_ws l '\r' h
    simp [wsChar] at this
  · rfl

theorem mem_trimEnd (l : List Char) (a : Char) (h : a ∈ trimEnd l) : a ∈ l := by
  simp only [trimEnd, List.mem_reverse] at h
  exact List.mem_reverse.mp ((List.dropWhile_sublist wsChar).mem h)

theorem isUseLine_trimEnd (l : List Char) : isUseLine (trimEnd l) = isUseLine l := by
  simp [isUseLine, trim_trimEnd]

theorem splitOnChar_ne_nil (sep : Char) (cs : List Char) : splitOnChar sep cs ≠ [] := by
  cases cs with
  | nil => simp [splitOnChar]
  | cons c rest =>
    by_cases hc : c = sep
    · simp [splitOnChar, hc]
    · simp only [splitOnChar, hc, if_false]
      rcases h : splitOnChar sep rest with _ | _ <;> simp

theorem splitOnChar_sep_not_mem (sep : Char) (cs : List Char) :
    ∀ s ∈ splitOnChar sep cs, sep ∉ s := by
  induction cs with
  | nil =>
    intro s hs
    simp only [splitOnChar, List.mem_singleton] at hs
    subst hs; simp
  | cons c rest ih =>
    intro s hs
    by_cases hc : c = sep
    · simp only [splitOnChar, hc, if_true] at hs
      rcases List.mem_cons.mp hs with h | h
      · subst h; simp
      · exact ih s h
    · simp only [splitOnChar, hc, if_false] at hs
      rcases hrec : splitOnChar sep rest with _ | ⟨s0, ss⟩
      · exact absurd hrec (splitOnChar_ne_nil sep rest)
      · rw [hrec] at hs
        rcases List.mem_cons.mp hs with h | h
        · subst h
          intro hmem
          rcases List.mem_cons.mp hmem with h | h
          · exact hc h.symm
          · exact ih s0 (by rw [hrec]; exact List.mem_cons_self s0 ss) h
        · exact ih s (by rw [hrec]; exact List.mem_cons_of_mem s0 h)

theorem splitOnChar_append (sep : Char) (l rest : List Char) (h : sep ∉ l) :
    splitOnChar sep (l ++ sep :: rest) = l :: splitOnChar sep rest := by
  induction l with
  | nil => simp [splitOnChar]
  | cons c t ih =>
    have hc : c ≠ sep := fun hh => h (hh ▸ List.mem_cons_self c t)
    have ht : sep ∉ t := fun hh => h (List.mem_cons_of_mem c hh)
    have harw : (t : List Char).append (sep :: rest) = t ++ sep :: rest := rfl
    simp only [List.cons_append, splitOnChar, hc, if_false, harw, ih ht]

theorem splitNl_joinNl (ls : List (List Char))
    (h : ∀ l ∈ ls, ('\n' : Char) ∉ l) :
    splitNl (joinNl ls) = ls ++ [[]] := by
  induction ls with
  | nil => simp [joinNl, splitNl, splitOnChar]
  | cons l t ih =>
    have h1 : ('\n' : Char) ∉ l := h l (List.mem_cons_self l t)
    have h2 : ∀ x ∈ t, ('\n' : Char) ∉ x := fun x hx => h x (List.mem_cons_of_mem l hx)
    have : joinNl (l :: t) = l ++ '\n' :: joinNl t := by
      simp [joinNl]
    rw [this]
    unfold splitNl
    rw [splitOnChar_append '\n' l (joinNl t) h1]
    simpa [splitNl] using congrArg (l :: ·) (ih h2)

theorem rustLines_joinNl (ls : List (List Char))
    (h1 : ∀ l ∈ ls, ('\n' : Char) ∉ l)
    (h2 : ∀ l ∈ ls, stripTrailCr l = l) :
    rustLines (joinNl ls) = ls := by
  unfold rustLines
  rw [splitNl_joinNl ls h1]
  simp only [List.dropLast_concat, List.getLast?_concat]
  rw [List.map_congr_left (fun l hl => h2 l hl) |>.trans (List.map_id ls)]
  simp

theorem mem_rustLines_no_nl (cs : List Char) :
    ∀ l ∈ rustLines cs, ('\n' : Char) ∉ l := by
  intro l hl
  unfold rustLines at hl
  rcases List.mem_append.mp hl with h | h
  · rcases List.mem_map.mp h with ⟨s, hs, rfl⟩
    have hseg : s ∈ splitNl cs := (List.dropLast_sublist _).mem hs
    have : ('\n' : Char) ∉ s := splitOnChar_sep_not_mem '\n' cs s hseg
    intro hmem
    unfold stripTrailCr at hmem
    split at hmem
    · exact this ((List.dropLast_sublist s).mem hmem)
    · exact this hmem
  · rcases hlast : (splitNl cs).getLast? with _ | s
    · simp [hlast] at h
    · have hseg : s ∈ splitNl cs := List.mem_of_mem_getLast? hlast
      have hns : ('\n' : Char) ∉ s := splitOnChar_sep_not_mem '\n' cs s hseg
      rcases s with _ | ⟨c, t⟩
      · simp [hlast] at h
      · simp only [hlast] at h
        rcases List.mem_singleton.mp h with rfl
        exact hns

theorem smartRepairGo_cons (seen : List (List Char)) (line : List Char)
    (rest : List (List Char)) :
    smartRepairGo seen (line :: rest) =
      if "use ".toList.isPrefixOf (trim line) then
        if trim line ∈ seen then ((smartRepairGo seen rest).1, true)
        else
          (trimEnd line :: (smartRepairGo (trim line :: seen) rest).1,
            (smartRepairGo (trim line :: seen) rest).2)
      else (trimEnd line :: (smartRepairGo seen rest).1, (smartRepairGo seen rest).2) :=
  rfl

theorem smartRepairGo_lines (lines : List (List Char)) :
    ∀ (seen : List (List Char)), ∀ l ∈ (smartRepairGo seen lines).1,
      ∃ l0 ∈ lines, l = trimEnd l0 := by
  induction lines with
  | nil => intro seen l hl; simp [smartRepairGo] at hl
  | cons line rest ih =>
    intro seen l hl
    rw [smartRepairGo_cons] at hl
    by_cases hu : "use ".toList.isPrefixOf (trim line) = true
    · rw [if_pos hu] at hl
      by_cases hm : trim line ∈ seen
      · rw [if_pos hm] at hl
        obtain ⟨l0, hl0, h⟩ := ih seen l hl
        exact ⟨l0, List.mem_cons_of_mem _ hl0, h⟩
      · rw [if_neg hm] at hl
        rcases List.mem_cons.mp hl with h | h
        · exact ⟨line, List.mem_cons_self line rest, h⟩
        · obtain ⟨l0, hl0, h⟩ := ih (trim line :: seen) l h
          exact ⟨l0, List.mem_cons_of_mem _ hl0, h⟩
    · rw [if_neg hu] at hl
      rcases List.mem_cons.mp hl with h | h
      · exact ⟨line, List.mem_cons_self line rest, h⟩
      · obtain ⟨l0, hl0, h⟩ := ih seen l h
        exact ⟨l0, List.mem_cons_of_mem _ hl0, h⟩

theorem smartRepairGo_keys (lines : List (List Char)) :
    ∀ (seen : List (List Char)),
      (useKeys (smartRepairGo seen lines).1).Nodup ∧
      ∀ k ∈ useKeys (smartRepairGo seen lines).1, k ∉ seen := by
  induction lines with
  | nil => intro seen; simp [smartRepairGo, useKeys]
  | cons line rest ih =>
    intro seen
    rw [smartRepairGo_cons]
    by_cases hu : "use ".toList.isPrefixOf (trim line) = true
    · by_cases hm : trim line ∈ seen
      · rw [if_pos hu, if_pos hm]
        exact ih seen
      · rw [if_pos hu, if_neg hm]
        have hkeys : useKeys (trimEnd line :: (smartRepairGo (trim line :: seen) rest).1) =
            trim line :: useKeys (smartRepairGo (trim line :: seen) rest).1 := by
          have huse : isUseLine (trimEnd line) = true := by
            rw [isUseLine_trimEnd]; exact hu
          simp [useKeys, List.filter_cons, huse, trim_trimEnd]
        rw [hkeys]
        obtain ⟨ihnd, ihseen⟩ := ih (trim line :: seen)
        constructor
        · exact List.nodup_cons.mpr
            ⟨fun hk => (ihseen (trim line) hk) (List.mem_cons_self _ _), ihnd⟩
        · intro k hk
          rcases List.mem_cons.mp hk with h | h
          · subst h; exact hm
          · exact fun hkseen => (ihseen k h) (List.mem_cons_of_mem _ hkseen)
    · rw [if_neg hu]
      have hkeys : useKeys (trimEnd line :: (smartRepairGo seen rest).1) =
          useKeys (smartRepairGo seen rest).1 := by
        have huse : isUseLine (trimEnd line) = false := by
          rw [isUseLine_trimEnd]
          exact Bool.eq_false_iff.mpr hu
        simp [useKeys, List.filter_cons, huse]
      rw [hkeys]
      exact ih seen

theorem smartRepairGo_fixed (lines : List (List Char)) :
    ∀ (seen : List (List Char)),
      (∀ l ∈ lines, trimEnd l = l) →
      (useKeys lines).Nodup →
      (∀ k ∈ useKeys lines, k ∉ seen) →
      smartRepairGo seen lines = (lines, false) := by
  induction lines with
  | nil => intro seen _ _ _; rfl
  | cons line rest ih =>
    intro seen htrim hnd hseen
    have htline : trimEnd line = line := htrim line (List.mem_cons_self line rest)
    have htrest : ∀ l ∈ rest, trimEnd l = l :=
      fun l hl => htrim l (List.mem_cons_of_mem _ hl)
    rw [smartRepairGo_cons]
    by_cases hu : "use ".toList.isPrefixOf (trim line) = true
    · have huse : isUseLine line = true := hu
      have hkeys : useKeys (line :: rest) = trim line :: useKeys rest := by
        simp [useKeys, List.filter_cons, huse]
      rw [hkeys] at hnd hseen
      obtain ⟨hnotin, hndrest⟩ := List.nodup_cons.mp hnd
      have hm : trim line ∉ seen := hseen (trim line) (List.mem_cons_self _ _)
      rw [if_pos hu, if_neg hm]
      have hrec : smartRepairGo (trim line :: seen) rest = (rest, false) := by
        refine ih (trim line :: seen) htrest hndrest ?_
        intro k hk
        intro hkmem
        rcases List.mem_cons.mp hkmem with h | h
        · exact hnotin (h ▸ hk)
        · exact hseen k (List.mem_cons_of_mem _ hk) h
      rw [hrec, htline]
    · have huse : isUseLine line = false := Bool.eq_false_iff.mpr hu
      have hkeys : useKeys (line :: rest) = useKeys rest := by
        simp [useKeys, List.filter_cons, huse]
      rw [hkeys] at hnd hseen
      rw [if_neg hu, ih seen htrest hnd hseen, htline]

theorem smartRepairGo_spec_eq (lines : List (List Char)) :
    ∀ (seen previous : List (List Char)),
      (∀ k, k ∈ seen ↔ ∃ p ∈ previous, isUseLine p = true ∧ trim p = k) →
      (smartRepairGo seen lines).1 = specRepairGo previous lines := by
  induction lines with
  | nil => intro seen previous _; rfl
  | cons line rest ih =>
    intro seen previous hinv
    rw [smartRepairGo_cons]
    by_cases hu : "use ".toList.isPrefixOf (trim line) = true
    · have huse : isUseLine line = true := hu
      by_cases hm : trim line ∈ seen
      · have hany : previous.any
            (fun p => isUseLine p && decide (trim p = trim line)) = true := by
          obtain ⟨p, hp, hpu, hpt⟩ := (hinv (trim line)).mp hm
          exact List.any_eq_true.mpr ⟨p, hp, by simp [hpu, hpt]⟩
        rw [if_pos hu, if_pos hm]
        have hspec : specRepairGo previous (line :: rest) =
            specRepairGo (previous ++ [line]) rest := by
          simp [specRepairGo, huse, hany]
        rw [hspec]
        refine ih seen (previous ++ [line]) ?_
        intro k
        constructor
        · intro hk
          obtain ⟨p, hp, hpu, hpt⟩ := (hinv k).mp hk
          exact ⟨p, List.mem_append_left _ hp, hpu, hpt⟩
        · rintro ⟨p, hp, hpu, hpt⟩
          rcases List.mem_append.mp hp with h | h
          · exact (hinv k).mpr ⟨p, h, hpu, hpt⟩
          · rcases List.mem_singleton.mp h with rfl
            exact hpt ▸ hm
      · have hany : previous.any
            (fun p => isUseLine p && decide (trim p = trim line)) = false := by
          rcases hb : previous.any
            (fun p => isUseLine p && decide (trim p = trim line)) with _ | _
          · rfl
          · exfalso
            obtain ⟨p, hp, hpb⟩ := List.any_eq_true.mp hb
            simp only [Bool.and_eq_true, decide_eq_true_eq] at hpb
            exact hm ((hinv (trim line)).mpr ⟨p, hp, hpb.1, hpb.2⟩)
        rw [if_pos hu, if_neg hm]
        have hspec : specRepairGo previous (line :: rest) =
            trimEnd line :: specRepairGo (previous ++ [line]) rest := by
          simp [specRepairGo, huse, hany]
        rw [hspec]
        have hrec : (smartRepairGo (trim line :: seen) rest).1 =
            specRepairGo (previous ++ [line]) rest := by
          refine ih (trim line :: seen) (previous ++ [line]) ?_
          intro k
          constructor
          · intro hk
            rcases List.mem_cons.mp hk with h | h
            · exact ⟨line, List.mem_append_right _ (List.mem_singleton.mpr rfl),
                huse, h.symm⟩
            · obtain ⟨p, hp, hpu, hpt⟩ := (hinv k).mp h
              exact ⟨p, List.mem_append_left _ hp, hpu, hpt⟩
          · rintro ⟨p, hp, hpu, hpt⟩
            rcases List.mem_append.mp hp with h | h
            · exact List.mem_cons_of_mem _ ((hinv k).mpr ⟨p, h, hpu, hpt⟩)
            · rcases List.mem_singleton.mp h with rfl
              exact hpt ▸ List.mem_cons_self _ _
        rw [hrec]
    · have huse : isUseLine line = false := Bool.eq_false_iff.mpr hu
      rw [if_neg hu]
      have hspec : specRepairGo previous (line :: rest) =
          trimEnd line :: specRepairGo (previous ++ [line]) rest := by
        simp [specRepairGo, huse]
      rw [hspec]
      have hrec : (smartRepairGo seen rest).1 =
          specRepairGo (previous ++ [line]) rest := by
        refine ih seen (previous ++ [line]) ?_
        intro k
        constructor
        · intro hk
          obtain ⟨p, hp, hpu, hpt⟩ := (hinv k).mp hk
          exact ⟨p, List.mem_append_left _ hp, hpu, hpt⟩
        · rintro ⟨p, hp, hpu, hpt⟩
          rcases List.mem_append.mp hp with h | h
          · exact (hinv k).mpr ⟨p, h, hpu, hpt⟩
          · rcases List.mem_singleton.mp h with rfl
            exact absurd hpu (by simp [huse])
      rw [hrec]

theorem smart_repair_fst (content : List Char) :
    (smart_repair content).1 = smartRepairContent content := by
  by_cases h : joinNl (smartRepairGo [] (rustLines content)).1 = content
  · simp [smart_repair, smartRepairContent, h]
  · simp [smart_repair, smartRepairContent, h]

theorem smart_repair_of_fixed (x : List Char) (h : smartRepairContent x = x) :
    smart_repair x = (x, false, msgRepairNoop) := by
  have h' : joinNl (smartRepairGo [] (rustLines x)).1 = x := h
  simp [smart_repair, h']

theorem smartRepairContent_idem (content : List Char) :
    smartRepairContent (smartRepairContent content) = smartRepairContent content := by
  have hlines := smartRepairGo_lines (rustLines content) []
  set ls₁ := (smartRepairGo [] (rustLines content)).1 with hls
  have hA : ∀ l ∈ ls₁, trimEnd l = l := by
    intro l hl
    obtain ⟨l0, _, rfl⟩ := hlines l hl
    exact trimEnd_idem l0
  have hB : ∀ l ∈ ls₁, ('\n' : Char) ∉ l := by
    intro l hl
    obtain ⟨l0, hl0, rfl⟩ := hlines l hl
    intro hmem
    exact mem_rustLines_no_nl content l0 hl0 (mem_trimEnd l0 '\n' hmem)
  have hC : ∀ l ∈ ls₁, stripTrailCr l = l := by
    intro l hl
    obtain ⟨l0, _, rfl⟩ := hlines l hl
    exact stripTrailCr_trimEnd l0
  have hrl : rustLines (smartRepairContent content) = ls₁ :=
    rustLines_joinNl ls₁ hB hC
  have hfix : smartRepairGo [] ls₁ = (ls₁, false) :=
    smartRepairGo_fixed ls₁ [] hA (smartRepairGo_keys (rustLines content) []).1
      (fun k _ => List.not_mem_nil k)
  show joinNl (smartRepairGo [] (rustLines (smartRepairContent content))).1 =
    smartRepairContent content
  rw [hrl, hfix]
  rfl

/-- C5 counterexample: a file whose only repair-relevant feature is a run of
four consecutive blank lines.  The claim says the repair operation
collapses every run of more than two consecutive blank lines, so the
content would have to change; `smart_repair` — the repair operation that
`ultra_repair` runs for the `Repair` and `Evolve` workflow steps — leaves
the content byte-identical, performs no write, and reports the no-op
message. -/
theorem c5_no_blank_line_collapse :
    smart_repair c5content = (c5content, false, msgRepairNoop) ∧
    rustLines c5content = [['a'], [], [], [], [], ['x']] := by decide

/-- C5 (amended): the repair operation used by the Repair and Evolve
workflow steps removes duplicate import (`use`) lines keeping the first
occurrence and trims trailing whitespace from every line (terminating each
with a newline); it does not touch blank-line runs.  It rewrites the file
iff the rebuilt content differs from the original, and reports a change
summary exactly when it rewrites, the no-op message otherwise. -/
theorem c5_repair_dedups_and_trims (content : List Char) :
    smartRepairContent content = specSmartRepair content ∧
    (smart_repair content).1 = smartRepairContent content ∧
    ((smart_repair content).2.1 = true ↔ smartRepairContent content ≠ content) ∧
    ((smart_repair content).2.2 = msgRepairNoop ↔
      smartRepairContent content = content) := by
  refine ⟨?_, smart_repair_fst content, ?_, ?_⟩
  · show joinNl (smartRepairGo [] (rustLines content)).1 =
      joinNl (specRepairGo [] (rustLines content))
    exact congrArg joinNl
      (smartRepairGo_spec_eq (rustLines content) [] [] (fun k => by simp))
  · by_cases h : joinNl (smartRepairGo [] (rustLines content)).1 = content
    · simp [smart_repair, smartRepairContent, h]
    · simp [smart_repair, smartRepairContent, h]
  · by_cases h : joinNl (smartRepairGo [] (rustLines content)).1 = content
    · simp [smart_repair, smartRepairContent, h]
    · have hmsg : ∀ b : Bool, (if b then msgRepairDup else msgRepairFormatting) ≠
          msgRepairNoop := by
        intro b; cases b <;> simp <;> decide
      simp [smart_repair, smartRepairContent, h, hmsg]

/-- C6: the repair operation is idempotent — feeding the content produced
by one `smart_repair` call into a second call leaves it unchanged: the
second call performs no write and reports the no-op message. -/
theorem c6_repair_idempotent (content : List Char) :
    smart_repair ((smart_repair content).1) =
      ((smart_repair content).1, false, msgRepairNoop) := by
  rw [smart_repair_fst]
  exact smart_repair_of_fixed _ (smartRepairContent_idem content)

theorem parChunksAux_flatMap_map {α β : Type _} (n : Nat) (f : α → β) :
    ∀ (fuel : Nat) (l : List α), l.length ≤ fuel →
      (parChunksAux n fuel l).flatMap (fun c => c.map f) = l.map f := by
  intro fuel
  induction fuel with
  | zero =>
    intro l hl
    have : l = [] := List.length_eq_zero.mp (Nat.le_zero.mp hl)
    subst this; rfl
  | succ fu ih =>
    intro l hl
    cases l with
    | nil => rfl
    | cons a t =>
      show ((a :: t).take (max 1 n) ::
          parChunksAux n fu ((a :: t).drop (max 1 n))).flatMap (fun c => c.map f) =
        (a :: t).map f
      rw [List.flatMap_cons, ih]
      · rw [← List.map_append, List.take_append_drop]
      · have h1 : 1 ≤ max 1 n := le_max_left 1 n
        have h2 : ((a :: t).drop (max 1 n)).length = (a :: t).length - max 1 n :=
          List.length_drop _ _
        simp only [List.length_cons] at h2 hl
        omega

theorem parChunks_flatMap_map {α β : Type _} (n : Nat) (f : α → β) (l : List α) :
    (parChunks n l).flatMap (fun c => c.map f) = l.map f :=
  parChunksAux_flatMap_map n f l.length l le_rfl

theorem processResultsChunked_eq_direct (fs : Fs) (cfg : ParallelConfig) (op : OpFn)
    (paths : List (List Char)) :
    processResultsChunked fs cfg op paths = processResultsDirect fs op paths :=
  parChunks_flatMap_map cfg.chunk_size (process_one fs op) paths

/-- C1 (code bug): the claimed partition invariant
`successful + errors + warnings + skipped = total_files` fails for
`ultra_delete`: its stats construction takes `warnings` from
`Default::default()` (0) while a dry-run delete of an existing file emits a
`Warning` result, so the four counters sum to 0 for a batch of one file. -/
theorem c1_ultra_delete_dry_run_uncounted_warning :
    (ultra_delete c1fs ["f.rs".toList] true).2.1.total_files = 1 ∧
    ((ultra_delete c1fs ["f.rs".toList] true).1.map ProcessingResult.status =
      [ProcessingStatus.warning]) ∧
    (ultra_delete c1fs ["f.rs".toList] true).2.1.successful +
        (ultra_delete c1fs ["f.rs".toList] true).2.1.errors +
        (ultra_delete c1fs ["f.rs".toList] true).2.1.warnings +
        (ultra_delete c1fs ["f.rs".toList] true).2.1.skipped = 0 := by
  decide

/-- C2: the chunked fan-out (`par_chunks(chunk_size.max(1)).flat_map`, used
at or above 256 files) produces exactly the per-file results of the direct
fan-out (`par_iter`, used below 256 files) — even as lists, hence as
multisets — so `process_files` returns the direct strategy's results,
stats, and byte counter no matter which branch the batch size selects. -/
theorem c2_fanout_strategies_agree (fs : Fs) (cfg : ParallelConfig) (op : OpFn)
    (paths : List (List Char)) (bytes0 : Nat) :
    processResultsChunked fs cfg op paths = processResultsDirect fs op paths ∧
    process_files fs cfg op paths bytes0 =
      ((processResultsDirect fs op paths).map Prod.fst,
        statsFromResults ((processResultsDirect fs op paths).map Prod.fst)
          (bytes0 + ((processResultsDirect fs op paths).map Prod.snd).sum),
        bytes0 + ((processResultsDirect fs op paths).map Prod.snd).sum) := by
  have h := processResultsChunked_eq_direct fs cfg op paths
  refine ⟨h, ?_⟩
  unfold process_files
  by_cases hlen : paths.length < 256
  · simp [hlen]
  · simp [hlen, h]

theorem process_one_snd (fs : Fs) (op : OpFn) (p : List Char) :
    (process_one fs op p).2 = readBytes fs p := by
  unfold process_one readBytes
  cases h : fs p with
  | none => simp
  | some c =>
    cases hop : op p c with
    | ok v => cases v; simp [hop]
    | error e => simp [hop]

theorem directResults_bytes (fs : Fs) (op : OpFn) (paths : List (List Char)) :
    ((processResultsDirect fs op paths).map Prod.snd).sum =
      (paths.map (readBytes fs)).sum := by
  unfold processResultsDirect
  rw [List.map_map]
  exact congrArg List.sum
    (List.map_congr_left (fun p _ => process_one_snd fs op p))

/-- C3 counterexample: a one-file batch whose operation always fails.  The
claim says `total_bytes` sums the sizes of exactly the files whose
operation succeeded (here: none, so 0), but the engine adds the size right
after the read, before the operation runs, so the stats report the file's
2 bytes; and a second batch on the same engine reports 4 bytes because the
counter is never reset between `process_files` invocations. -/
theorem c3_total_bytes_counts_failed_ops :
    (process_files c3fs cfgDefault c3opFail ["f".toList] 0).2.1.successful = 0 ∧
    (process_files c3fs cfgDefault c3opFail ["f".toList] 0).2.1.total_bytes = 2 ∧
    (process_files c3fs cfgDefault c3opFail ["f".toList]
        (process_files c3fs cfgDefault c3opFail ["f".toList] 0).2.2).2.1.total_bytes
      = 4 := by
  decide

/-- C3 (amended): `stats.total_bytes` equals the engine counter's value at
the start of the call plus the sizes of all files of the batch that were
successfully read — bytes are added after a successful read whether or not
the operation then succeeds, and the counter accumulates across successive
`process_files` invocations on the same engine instead of covering one
batch. -/
theorem c3_total_bytes_is_read_accumulator (fs : Fs) (cfg : ParallelConfig)
    (op : OpFn) (paths : List (List Char)) (bytes0 : Nat) :
    (process_files fs cfg op paths bytes0).2.1.total_bytes =
      bytes0 + (paths.map (readBytes fs)).sum ∧
    (process_files fs cfg op paths bytes0).2.2 =
      bytes0 + (paths.map (readBytes fs)).sum := by
  unfold process_files
  by_cases hlen : paths.length < 256
  · simp only [hlen, if_true]
    exact ⟨congrArg (bytes0 + ·) (directResults_bytes fs op paths),
      congrArg (bytes0 + ·) (directResults_bytes fs op paths)⟩
  · simp only [hlen, if_false, processResultsChunked_eq_direct]
    exact ⟨congrArg (bytes0 + ·) (directResults_bytes fs op paths),
      congrArg (bytes0 + ·) (directResults_bytes fs op paths)⟩

theorem foldl_applyEditOp (ops : List EditOp) :
    ∀ (content : List Char) (applied : Nat),
      ops.foldl applyEditOp (content, applied) =
        (ops.foldl opTransform content, applied + specApplied content ops) := by
  induction ops with
  | nil => intro c n; simp [specApplied]
  | cons op rest ih =>
    intro c n
    rw [List.foldl_cons, List.foldl_cons]
    have hstep : applyEditOp (c, n) op =
        (opTransform c op, n + (if opFires c op then 1 else 0)) := by
      cases op with
      | replace t r =>
        simp only [applyEditOp, opTransform, opFires]
        split <;> simp
      | append s => simp [applyEditOp, opTransform, opFires]
      | regexReplace re =>
        cases re with
        | none => simp [applyEditOp, opTransform, opFires]
        | some f =>
          simp only [applyEditOp, opTransform, opFires]
          by_cases hne : f c = c
          · simp [hne]
          · simp [hne]
    rw [hstep, ih]
    have : n + (if opFires c op then 1 else 0) + specApplied (opTransform c op) rest =
        n + ((if opFires c op then 1 else 0) + specApplied (opTransform c op) rest) := by
      omega
    rw [this]
    rfl

/-- C4 counterexample: one `Replace` operation whose replacement text
equals its target, on a file that contains the target.  No operation
changes the content (the file is byte-identical afterwards, even with
`dry_run = false`), so per the claim the applied counter must stay 0 and
the result must be `Skipped`; the code counts the no-op match and reports
`Success` with "Applied 1 edits". -/
theorem c4_replace_noop_counted_as_applied :
    (ultraEditFile false c4fs c4change).1.status = ProcessingStatus.success ∧
    (ultraEditFile false c4fs c4change).1.findings = [msgApplied 1] ∧
    (ultraEditFile false c4fs c4change).2 "f".toList = some "a".toList := by
  decide

/-- C4 (amended): operations are applied in list order to an in-memory
copy; `RegexReplace` counts as applied only when it changed the content,
but `Replace` counts whenever its target occurs (even when the replacement
equals the target and the content is unchanged) and `Append` always counts
(even for an empty suffix).  The file's result is `Skipped` with the
no-match finding iff no operation counted, and otherwise `Success`
reporting the applied count — identically for both values of `dry_run`,
which only controls the write-back. -/
theorem c4_edit_applied_semantics (fs : Fs) (dry : Bool) (ch : FileChange) :
    (ultraEditFile dry fs ch).1 =
      (if specApplied (((if fs ch.path = none then fsWrite fs ch.path [] else fs)
            ch.path).getD []) ch.operations > 0 then
        { path := ch.path, status := .success,
          findings := [msgApplied (specApplied
            (((if fs ch.path = none then fsWrite fs ch.path [] else fs)
              ch.path).getD []) ch.operations)] }
      else { path := ch.path, status := .skipped, findings := [msgNoMatch] }) ∧
    (ultraEditFile true fs ch).1 = (ultraEditFile false fs ch).1 := by
  have key : ∀ d : Bool, (ultraEditFile d fs ch).1 =
      (if specApplied (((if fs ch.path = none then fsWrite fs ch.path [] else fs)
            ch.path).getD []) ch.operations > 0 then
        { path := ch.path, status := .success,
          findings := [msgApplied (specApplied
            (((if fs ch.path = none then fsWrite fs ch.path [] else fs)
              ch.path).getD []) ch.operations)] }
      else { path := ch.path, status := .skipped, findings := [msgNoMatch] }) := by
    intro d
    simp only [ultraEditFile, foldl_applyEditOp, Nat.zero_add]
    by_cases hpos : specApplied (((if fs ch.path = none then fsWrite fs ch.path []
        else fs) ch.path).getD []) ch.operations > 0
    · simp [hpos]
    · simp [hpos]
  exact ⟨key dry, (key true).trans (key false).symm⟩

theorem security_foldl (ws : List (List Char)) :
    ∀ (s : Int),
      ws.foldl
        (fun s w =>
          if containsSub w "SEGURIDAD".toList || containsSub w "API Key".toList ||
              containsSub w "Password".toList then s - 25
          else if containsSub w "unsafe".toList then s - 15
          else s - 5) s =
      s - 25 * ws.countP isSecretWarning - 15 * ws.countP isUnsafeClassWarning
        - 5 * ws.countP
            (fun w => !isSecretWarning w && !containsSub w "unsafe".toList) := by
  induction ws with
  | nil => intro s; simp
  | cons w t ih =>
    intro s
    rw [List.foldl_cons, ih]
    rw [List.countP_cons, List.countP_cons, List.countP_cons]
    by_cases h1 : (containsSub w "SEGURIDAD".toList || containsSub w "API Key".toList ||
        containsSub w "Password".toList) = true
    · have e1 : isSecretWarning w = true := h1
      have e3 : (!isSecretWarning w && !containsSub w "unsafe".toList) = false := by
        rw [e1]; rfl
      have e2 : isUnsafeClassWarning w = false := by
        simp only [isUnsafeClassWarning]; rw [e1]; rfl
      rw [if_pos h1, e3, e2, e1]
      simp only [reduceIte]
      push_cast
      omega
    · have e1 : isSecretWarning w = false := Bool.eq_false_iff.mpr h1
      rw [if_neg h1]
      by_cases h2 : containsSub w "unsafe".toList = true
      · have e3 : (!isSecretWarning w && !containsSub w "unsafe".toList) = false := by
          rw [h2]; exact Bool.and_false _
        have e2 : isUnsafeClassWarning w = true := by
          simp only [isUnsafeClassWarning]; rw [e1, h2]; rfl
        rw [if_pos h2, e3, e2, e1]
        simp only [reduceIte]
        push_cast
        omega
      · have h2' : containsSub w "unsafe".toList = false := Bool.eq_false_iff.mpr h2
        have e3 : (!isSecretWarning w && !containsSub w "unsafe".toList) = true := by
          rw [e1, h2']; rfl
        have e2 : isUnsafeClassWarning w = false := by
          simp only [isUnsafeClassWarning]; rw [e1, h2']; rfl
        rw [if_neg h2, e3, e2, e1]
        simp only [reduceIte]
        push_cast
        omega

/-- C9 counterexample: a `.py` file containing `eval(` produces exactly
the insecure-`eval` warning — an extension-specific insecure-code finding,
not a secret/credential-class or unsafe-memory-class warning (third and
fourth conjuncts) — yet the program scores it 75 because the SEGURIDAD
branding of its text falls into the 25-point string test, while the
claim's formula (25 per secret/credential warning, 15 per unsafe-memory
warning, 5 per other) yields 95: the claim's per-class decrements do not
describe the computed score. -/
theorem c9_eval_warning_scores_as_secret :
    (computeAnalysis c9pyPath c9pyContent).warnings = [wPyEval] ∧
    (computeAnalysis c9pyPath c9pyContent).security_score = 75 ∧
    isSpecSecretWarning wPyEval = false ∧
    isSpecUnsafeMemWarning wPyEval = false ∧
    claimSecurityScore (computeAnalysis c9pyPath c9pyContent).warnings = 95 ∧
    (computeAnalysis c9pyPath c9pyContent).security_score ≠
      claimSecurityScore (computeAnalysis c9pyPath c9pyContent).warnings := by
  decide

/-- C9 (amended): the security score of every analyzed file equals 100
minus 25 per warning whose text mentions `SEGURIDAD`, `API Key` or
`Password` — a class that contains the secret/credential warnings but
also the SEGURIDAD-branded Python `eval`/`pickle` insecure-code warnings —
minus 15 per remaining warning mentioning `unsafe`, minus 5 per any other
warning, clamped to `[0, 100]`. -/
theorem c9_security_score_formula (path content : List Char) :
    (computeAnalysis path content).security_score =
      (min 100 (max 0
        (100 - 25 * ((detect_warnings content path).countP isSecretWarning)
          - 15 * ((detect_warnings content path).countP isUnsafeClassWarning)
          - 5 * ((detect_warnings content path).countP
              (fun w => !isSecretWarning w && !containsSub w "unsafe".toList))
          : Int))).toNat := by
  show calculate_security_score (detect_warnings content path) = _
  unfold calculate_security_score
  rw [security_foldl]

/-- C10: when a `FileChange` targets a path that does not exist,
`ultra_edit` creates it (parent directories plus an empty file) even under
`dry_run = true`; the dry-run flag suppresses only the final write-back of
edited content, so after a dry run the freshly created file exists and is
empty. -/
theorem c10_autocreate_ignores_dry_run (fs : Fs) (ch : FileChange)
    (h : fs ch.path = none) :
    (ultraEditFile true fs ch).2 ch.path = some [] := by
  have hlook : fsWrite fs ch.path [] ch.path = some [] := by simp [fsWrite]
  simp only [ultraEditFile, h, reduceIte, Bool.not_true]
  split <;> exact hlook

/-- C10 witness: a concrete empty filesystem and a change targeting
`new.rs` — after a dry run the file exists and is empty. -/
theorem c10_autocreate_ignores_dry_run_witness :
    c10fs c10change.path = none ∧
    (ultraEditFile true c10fs c10change).2 c10change.path = some [] :=
  ⟨rfl, c10_autocreate_ignores_dry_run c10fs c10change rfl⟩

/-- C7 counterexample: `a.rs` is analyzed at modification time 1 (caching
`(1, A1)`), then its content and timestamp change.  The next call
recomputes and returns the fresh `A2`, but — contrary to the claim — the
cache entry is *not* overwritten: `scc::HashMap::insert` refuses occupied
keys and the `Err` is discarded, so the cache still holds `(1, A1)` and a
repeat call in the identical state recomputes again (third conjunct:
recompute flag `true`) instead of returning from the cache. -/
theorem c7_stale_entry_not_overwritten :
    analyze_file c7fs1 [] c7path = .ok (c7A1, [(c7path, 1, c7A1)], true) ∧
    analyze_file c7fs2 [(c7path, 1, c7A1)] c7path =
      .ok (c7A2, [(c7path, 1, c7A1)], true) ∧
    c7A1 ≠ c7A2 := by
  decide

/-- C7 (amended): a cache hit requires the stored timestamp to equal the
file's current modification time, in which case the cached analysis is
returned without recomputation; on a missing entry the analysis is
computed and inserted; on a timestamp mismatch the analysis is recomputed
and the fresh value returned, but the stale cache entry is left in place
(the insert is a no-op on an occupied key), so the path keeps being
recomputed by every later call until the file's timestamp matches the
stale entry again. -/
theorem c7_cache_hit_requires_equal_timestamp (fs : FsA) (cache : AnalysisCache)
    (p : List Char) (mt : Nat) (content : List Char)
    (h : fs p = some (mt, content)) :
    (cacheGet cache p = none →
      analyze_file fs cache p =
        .ok (computeAnalysis p content, (p, mt, computeAnalysis p content) :: cache,
          true)) ∧
    (∀ ts a, cacheGet cache p = some (ts, a) →
      (ts = mt → analyze_file fs cache p = .ok (a, cache, false)) ∧
      (ts ≠ mt →
        analyze_file fs cache p = .ok (computeAnalysis p content, cache, true))) := by
  constructor
  · intro hnone
    simp [analyze_file, h, hnone, sccInsert]
  · intro ts a hsome
    constructor
    · intro hts
      subst hts
      simp [analyze_file, h, hsome]
    · intro hts
      simp [analyze_file, h, hsome, hts, sccInsert]

theorem containsSub_of_infix {n h : List Char} (hinf : n <:+: h) :
    containsSub h n = true := by
  obtain ⟨s, t, rfl⟩ := hinf
  induction s with
  | nil =>
    have hpre : n.isPrefixOf (n ++ t) = true :=
      List.isPrefixOf_iff_prefix.mpr (List.prefix_append n t)
    rw [containsSub.eq_def]
    simp only [List.nil_append]
    rw [hpre, Bool.true_or]
  | cons c s ih =>
    rw [List.cons_append, List.cons_append, containsSub]
    rw [ih, Bool.or_true]

theorem isInfix_joinPipe_of_mem {x : List Char} {parts : List (List Char)}
    (hx : x ∈ parts) : x <:+: joinPipe parts := by
  induction parts with
  | nil => cases hx
  | cons p ps ih =>
    rcases List.mem_cons.mp hx with rfl | hmem
    · cases ps with
      | nil =>
        simp only [joinPipe, List.intersperse_singleton, List.flatten,
          List.append_nil]
        exact List.infix_rfl
      | cons q qs =>
        have hrw : joinPipe (x :: q :: qs) = x ++ '|' :: joinPipe (q :: qs) := by
          simp [joinPipe, List.intersperse]
        rw [hrw]
        exact (List.prefix_append x _).isInfix
    · cases ps with
      | nil => cases hmem
      | cons q qs =>
        have hrw : joinPipe (p :: q :: qs) = (p ++ ['|']) ++ joinPipe (q :: qs) := by
          simp [joinPipe, List.intersperse]
        have hsfx : joinPipe (q :: qs) <:+ joinPipe (p :: q :: qs) :=
          ⟨p ++ ['|'], hrw.symm⟩
        exact (ih hmem).trans hsfx.isInfix

theorem process_files_results_eq (fs : Fs) (cfg : ParallelConfig) (op : OpFn)
    (files : List (List Char)) (b : Nat) :
    (process_files fs cfg op files b).1 =
      files.map (fun p => (process_one fs op p).1) := by
  unfold process_files
  by_cases hlen : files.length < 256
  · simp [hlen, processResultsDirect, List.map_map, Function.comp]
  · simp [hlen, processResultsChunked_eq_direct, processResultsDirect,
      List.map_map, Function.comp]

theorem issuesOf_eq_sum (rs : List ProcessingResult) :
    issuesOf rs =
      (rs.map (fun r => r.findings.countP (fun f => containsSub f fixableTag))).sum := by
  have aux : ∀ (l : List ProcessingResult) (acc : Nat),
      l.foldl (fun a r => a + r.findings.countP (fun f => containsSub f fixableTag)) acc =
        acc + (l.map (fun r => r.findings.countP (fun f => containsSub f fixableTag))).sum := by
    intro l
    induction l with
    | nil => intro acc; simp
    | cons r t ih =>
      intro acc
      rw [List.foldl_cons, ih, List.map_cons, List.sum_cons]
      omega
  simpa [issuesOf] using aux rs 0

theorem issues_all_unwrap (fs : Fs) (cfg : ParallelConfig) (b : Nat)
    (files : List (List Char))
    (hfiles : ∀ p ∈ files, ∃ c, fs p = some c ∧
      containsSub c "unwrap()".toList = true) :
    issuesOf ((process_files fs cfg evolveOp files b).1) = files.length := by
  rw [process_files_results_eq, issuesOf_eq_sum, List.map_map]
  have hone : ∀ p ∈ files,
      ((fun r => r.findings.countP (fun f => containsSub f fixableTag)) ∘
        (fun p => (process_one fs evolveOp p).1)) p = 1 := by
    intro p hp
    obtain ⟨c, hc, hunw⟩ := hfiles p hp
    have hmem : mFixUnwrapUse ∈ evolveMarkers c := by
      simp only [evolveMarkers, hunw, reduceIte]
      exact List.mem_append.mpr
        (Or.inl (List.mem_append.mpr (Or.inr (List.mem_singleton.mpr rfl))))
    have hinf : fixableTag <:+: joinPipe (evolveMarkers c) :=
      (List.IsPrefix.isInfix (by decide : fixableTag <+: mFixUnwrapUse)).trans
        (isInfix_joinPipe_of_mem hmem)
    have hcs : containsSub (joinPipe (evolveMarkers c)) fixableTag = true :=
      containsSub_of_infix hinf
    simp [process_one, hc, evolveOp, List.countP, List.countP.go, hcs]
  rw [List.map_congr_left hone]
  simp [List.map_const', List.sum_replicate]

theorem evolveGo_iters_le (cfg : ParallelConfig) (files : List (List Char))
    (dry : Bool) :
    ∀ (r i : Nat) (fs : Fs) (b : Nat), (evolveGo cfg files dry r i fs b).iters ≤ r := by
  intro r
  induction r with
  | zero => intro i fs b; simp [evolveGo]
  | succ rr ih =>
    intro i fs b
    simp only [evolveGo]
    by_cases hz : issuesOf (process_files fs cfg evolveOp files b).1 = 0
    · simp [hz]
    · simp only [hz, if_false]
      exact Nat.succ_le_succ (ih _ _ _)

theorem evolveGo_dry_stuck (cfg : ParallelConfig) (files : List (List Char))
    (fs : Fs) (n : Nat)
    (hn : issuesOf ((process_files fs cfg evolveOp files 0).1) = n) (hne : n ≠ 0) :
    ∀ (r i b : Nat),
      evolveGo cfg files true r i fs b =
        { log := (List.range' (i + 1) r).map
            (fun j => ⟨evolveIterPath j, .success, [msgEvolveIter n 0 true]⟩)
          fs := fs, iters := r, fixes := 0 } := by
  intro r
  induction r with
  | zero => intro i b; simp [evolveGo, List.range']
  | succ rr ih =>
    intro i b
    have hb : issuesOf ((process_files fs cfg evolveOp files b).1) = n := by
      rw [process_files_results_eq] at hn ⊢
      exact hn
    simp only [evolveGo, hb, hne, if_false, if_true]
    rw [ih (i + 1)]
    rw [List.range'_succ, List.map_cons]
    simp

theorem evolveGo_early_zero_and_logs (cfg : ParallelConfig)
    (files : List (List Char)) (isDry : Bool) :
    ∀ (r i : Nat) (fs : Fs) (b : Nat),
      (evolveGo cfg files isDry r i fs b).iters < r →
      issuesOf ((process_files
          (evolveFsIter cfg files isDry (evolveGo cfg files isDry r i fs b).iters fs)
          cfg evolveOp files 0).1) = 0 ∧
      (⟨evolveCompletePath, .success,
        [msgEvolveComplete (i + (evolveGo cfg files isDry r i fs b).iters)]⟩ :
          ProcessingResult) ∈ (evolveGo cfg files isDry r i fs b).log := by
  intro r
  induction r with
  | zero => intro i fs b h; exact absurd h (Nat.not_lt_zero _)
  | succ rr ih =>
    intro i fs b h
    by_cases hz : issuesOf ((process_files fs cfg evolveOp files b).1) = 0
    · have hev : evolveGo cfg files isDry (rr + 1) i fs b =
          { log := [⟨evolveCompletePath, .success, [msgEvolveComplete i]⟩]
            fs := fs, iters := 0, fixes := 0 } := by
        simp [evolveGo, hz]
      rw [hev]
      constructor
      · show issuesOf ((process_files fs cfg evolveOp files 0).1) = 0
        rw [process_files_results_eq]
        rw [process_files_results_eq] at hz
        exact hz
      · simp
    · simp only [evolveGo, hz, if_false] at h ⊢
      have hstep : ((if isDry then (([] : List ProcessingResult), 0, fs)
          else ((ultra_repair fs files).1, (ultra_repair fs files).2.1.successful,
            (ultra_repair fs files).2.2)) :
            List ProcessingResult × Nat × Fs).2.2 =
          if isDry then fs else (ultra_repair fs files).2.2 := by
        cases isDry <;> rfl
      rw [hstep] at h ⊢
      have hlt := Nat.lt_of_succ_lt_succ h
      obtain ⟨ih1, ih2⟩ := ih (i + 1) (if isDry then fs else (ultra_repair fs files).2.2)
        (process_files fs cfg evolveOp files b).2.2 hlt
      constructor
      · show issuesOf ((process_files
            (evolveFsIter cfg files isDry (_ + 1) fs) cfg evolveOp files 0).1) = 0
        rw [show ∀ k, evolveFsIter cfg files isDry (k + 1) fs =
            evolveFsIter cfg files isDry k
              (if isDry then fs else (ultra_repair fs files).2.2) from fun k => rfl]
        exact ih1
      · have hidx : i + ((evolveGo cfg files isDry rr (i + 1)
            (if isDry then fs else (ultra_repair fs files).2.2)
            (process_files fs cfg evolveOp files b).2.2).iters + 1) =
            (i + 1) + (evolveGo cfg files isDry rr (i + 1)
              (if isDry then fs else (ultra_repair fs files).2.2)
              (process_files fs cfg evolveOp files b).2.2).iters := by
          omega
        rw [hidx]
        exact List.mem_append.mpr (Or.inr (List.mem_cons_of_mem _ ih2))

theorem evolveIterPath_ne_complete (j : Nat) :
    evolveIterPath j ≠ evolveCompletePath := by
  intro h
  have h8 : (evolveIterPath j)[7]? = evolveCompletePath[7]? := by rw [h]
  have hL : (evolveIterPath j)[7]? = some 'I' := by
    show (("EVOLVE_ITER_" ++ toString j) : String).data[7]? = some 'I'
    rw [String.data_append]
    rw [List.getElem?_append_left (by decide : (7 : Nat) < ("EVOLVE_ITER_".data).length)]
    decide
  have hR : evolveCompletePath[7]? = some 'C' := by decide
  rw [hL, hR] at h8
  exact absurd h8 (by decide)

/-- C8: for every `Evolve` workflow step (any `dry_run`, any file set) the
loop executes at most `max_iterations` (default 5) full iterations, and it
terminates early only when the iteration it stopped in counted zero
fixable issues over the then-current filesystem (`evolveFsIter` names the
filesystem after the repairs of the completed iterations), in which case
it logs the `EVOLVE_COMPLETE` convergence entry.  With `dry_run = true`
over a nonempty active file set in which every file exists and contains
the `unwrap()` pattern, the loop runs exactly `max_iterations` iterations,
each logging the same nonzero issue count (the number of files), and never
logs the convergence entry. -/
theorem c8_evolve_bounded_and_dry_run_scenario (cfg : ParallelConfig) (fs : Fs)
    (files : List (List Char)) (mIt : Option Nat) (dry : Option Bool) (b : Nat) :
    (evolve_step cfg fs files mIt dry b).iters ≤ mIt.getD 5 ∧
    ((evolve_step cfg fs files mIt dry b).iters < mIt.getD 5 →
      issuesOf ((process_files
        (evolveFsIter cfg files (dry.getD true)
          (evolve_step cfg fs files mIt dry b).iters fs)
        cfg evolveOp files 0).1) = 0 ∧
      (⟨evolveCompletePath, .success,
        [msgEvolveComplete (evolve_step cfg fs files mIt dry b).iters]⟩ :
          ProcessingResult) ∈ (evolve_step cfg fs files mIt dry b).log) ∧
    (dry.getD true = true → files ≠ [] →
      (∀ p ∈ files, ∃ c, fs p = some c ∧
        containsSub c "unwrap()".toList = true) →
      (evolve_step cfg fs files mIt dry b).iters = mIt.getD 5 ∧
      (evolve_step cfg fs files mIt dry b).log =
        (List.range' 1 (mIt.getD 5)).map
          (fun j => ⟨evolveIterPath j, .success,
            [msgEvolveIter files.length 0 true]⟩) ∧
      ∀ e ∈ (evolve_step cfg fs files mIt dry b).log,
        e.path ≠ evolveCompletePath) := by
  unfold evolve_step
  refine ⟨evolveGo_iters_le cfg files (dry.getD true) (mIt.getD 5) 0 fs b, ?_, ?_⟩
  · intro hearly
    have h := evolveGo_early_zero_and_logs cfg files (dry.getD true) (mIt.getD 5) 0
      fs b hearly
    rw [Nat.zero_add] at h
    exact h
  · intro hdry hne hunw
    have hn := issues_all_unwrap fs cfg 0 files hunw
    have hlen0 : files.length ≠ 0 := fun h0 => hne (List.length_eq_zero.mp h0)
    have hstuck := evolveGo_dry_stuck cfg files fs files.length hn hlen0
      (mIt.getD 5) 0 b
    rw [hdry, hstuck]
    refine ⟨rfl, rfl, ?_⟩
    intro e he
    simp only [List.mem_map] at he
    obtain ⟨j, _, rfl⟩ := he
    exact evolveIterPath_ne_complete j

/-- C8 witness: one file `a.rs` with content `x.unwrap();`, analyzed in
dry-run mode with `max_iterations = 3`: the loop runs exactly 3
iterations, each logging "Issues: 1, Fixes: 0 (dry_run: true)". -/
theorem c8_evolve_bounded_and_dry_run_scenario_witness :
    (c8files ≠ [] ∧
      ∀ p ∈ c8files, ∃ c, c8fs p = some c ∧
        containsSub c "unwrap()".toList = true) ∧
    (evolve_step cfgDefault c8fs c8files (some 3) (some true) 0).iters = 3 ∧
    (evolve_step cfgDefault c8fs c8files (some 3) (some true) 0).log =
      (List.range' 1 3).map
        (fun j => ⟨evolveIterPath j, .success, [msgEvolveIter 1 0 true]⟩) := by
  have hunw : ∀ p ∈ c8files, ∃ c, c8fs p = some c ∧
      containsSub c "unwrap()".toList = true := by
    intro p hp
    simp only [c8files, List.mem_singleton] at hp
    subst hp
    exact ⟨"x.unwrap();\n".toList, by decide, by decide⟩
  have h := (c8_evolve_bounded_and_dry_run_scenario cfgDefault c8fs c8files
    (some 3) (some true) 0).2.2 rfl (by decide) hunw
  exact ⟨⟨by decide, hunw⟩, h.1, h.2.1⟩

/-- C7 witness: with the cache holding the entry written by the first
analysis of `a.rs` and an unchanged modification time, the next call is a
pure cache hit: it returns the identical analysis, leaves the cache
untouched, and does not recompute. -/
theorem c7_cache_hit_requires_equal_timestamp_witness :
    c7fs1 c7path = some (1, c7content1) ∧
    cacheGet [(c7path, 1, c7A1)] c7path = some (1, c7A1) ∧
    analyze_file c7fs1 [(c7path, 1, c7A1)] c7path =
      .ok (c7A1, [(c7path, 1, c7A1)], false) :=
  ⟨by decide, by decide,
    ((c7_cache_hit_requires_equal_timestamp c7fs1 [(c7path, 1, c7A1)] c7path 1
        c7content1 (by decide)).2 1 c7A1 (by decide)).1 rfl⟩

end MemoryP
